import Mathlib

/-!
Shallow embedding of the ray-tracer sources (geometry/vector.rs,
geometry/ray.rs, materials/material.rs, materials/lambertian.rs,
main.rs) together with spec-modelled parts for modules whose source
files are absent (BVH, AABB, color arithmetic), and theorems settling
the specification claims about them.

Machine `f32` values are modelled as real numbers; `u32` counters as
naturals.  Rust division by zero on floats yields non-finite values;
in the real-number model Lean's convention `x / 0 = 0` is used, and
any theorem touching such a point states so explicitly.
-/

namespace Raytrace

noncomputable section

/-- Three-component vector of f32, modelled over the reals
(src/geometry/vector.rs, `struct Vector3`). -/
structure Vector3 where
  x : ℝ
  y : ℝ
  z : ℝ

/-- Componentwise addition (`impl Add for Vector3`). -/
def Vector3.add (a b : Vector3) : Vector3 :=
  ⟨a.x + b.x, a.y + b.y, a.z + b.z⟩

/-- Componentwise subtraction (`impl Sub for Vector3`). -/
def Vector3.sub (a b : Vector3) : Vector3 :=
  ⟨a.x - b.x, a.y - b.y, a.z - b.z⟩

/-- Componentwise negation (`impl Neg for Vector3`). -/
def Vector3.neg (a : Vector3) : Vector3 :=
  ⟨-a.x, -a.y, -a.z⟩

/-- Componentwise vector-vector product (`impl Mul for Vector3`). -/
def Vector3.mulV (a b : Vector3) : Vector3 :=
  ⟨a.x * b.x, a.y * b.y, a.z * b.z⟩

/-- Scalar-times-vector product exactly as written in the source
(`impl Mul<Vector3> for f32`): all three output components are
computed from the `x` component of the vector operand. -/
def Vector3.scalarMul (s : ℝ) (v : Vector3) : Vector3 :=
  ⟨s * v.x, s * v.x, s * v.x⟩

/-- Dot product (`Vector3::dot`). -/
def Vector3.dot (a b : Vector3) : ℝ :=
  a.x * b.x + a.y * b.y + a.z * b.z

/-- Squared length (`Vector3::length_squared`). -/
def Vector3.length_squared (v : Vector3) : ℝ :=
  v.x ^ 2 + v.y ^ 2 + v.z ^ 2

/-- Length (`Vector3::length`). -/
def Vector3.length (v : Vector3) : ℝ :=
  Real.sqrt v.length_squared

/-- `Vector3::direction`: `(1.0 / self.length()) * self`, using the
source's scalar multiplication. -/
def Vector3.direction (v : Vector3) : Vector3 :=
  Vector3.scalarMul (1 / v.length) v

/-- `Vector3::near_zero`: every component has absolute value below
the threshold `1e-6`. -/
def Vector3.near_zero (v : Vector3) : Prop :=
  |v.x| < 1 / 1000000 ∧ |v.y| < 1 / 1000000 ∧ |v.z| < 1 / 1000000

/-- Modelled from the spec: true mathematical normalization `v / |v|`
("normalize before returning", section 4.2); used only to compare the
source's `Vector3::direction` against the spec's wording. -/
def Vector3.normalizeSpec (v : Vector3) : Vector3 :=
  ⟨v.x / v.length, v.y / v.length, v.z / v.length⟩

/-- A ray (src/geometry/ray.rs). -/
structure Ray where
  origin : Vector3
  direction : Vector3
  time : ℝ

/-- `Ray::at_distance`: `self.origin + distance * self.direction`. -/
def Ray.at_distance (r : Ray) (distance : ℝ) : Vector3 :=
  Vector3.add r.origin (Vector3.scalarMul distance r.direction)

/-- RGB color with f32 channels, modelled over the reals.  The file
geometry/color.rs is not among the provided sources; the field names
follow the uses in main.rs (`Color { r, g, b }`). -/
structure Color where
  r : ℝ
  g : ℝ
  b : ℝ

/-- Modelled from the spec: componentwise color addition ("Color
collaborator supplies componentwise add/multiply/scalar-multiply",
section 6; geometry/color.rs is absent from the sources). -/
def Color.addC (a c : Color) : Color :=
  ⟨a.r + c.r, a.g + c.g, a.b + c.b⟩

/-- Modelled from the spec: componentwise color multiplication
(section 6; geometry/color.rs is absent from the sources). -/
def Color.mulC (a c : Color) : Color :=
  ⟨a.r * c.r, a.g * c.g, a.b * c.b⟩

/-- Modelled from the spec: scalar-times-color multiplication,
componentwise (section 6; geometry/color.rs is absent from the
sources). -/
def Color.smulC (s : ℝ) (c : Color) : Color :=
  ⟨s * c.r, s * c.g, s * c.b⟩

/-- A Lambertian material (materials/lambertian.rs).  Its texture
(`albedo : Arc<dyn Texture>`) is an opaque sampling function
`(u, v, point) -> color`, the interface the spec gives for the absent
textures module. -/
structure Lambertian where
  albedo : ℝ → ℝ → Vector3 → Color

open Classical in
/-- `Lambertian::scatter` from materials/lambertian.rs: surface normal
plus the sampled random unit vector, falling back to the normal alone
when the sum is near zero, passed through `Vector3::direction`.  The
random unit vector drawn inside the method is taken as the `rand`
parameter. -/
def Lambertian.scatter (_L : Lambertian) (normal rand : Vector3) : Vector3 :=
  let sd := Vector3.add normal rand
  let sd2 := if sd.near_zero then normal else sd
  sd2.direction

/-- `Lambertian::color` from materials/lambertian.rs: sample the
albedo texture at the hit's (u, v) and intersection point. -/
def Lambertian.color (L : Lambertian) (u v : ℝ) (intersection : Vector3) : Color :=
  L.albedo u v intersection

/-- `reflect_ray` from materials/material.rs. -/
def reflect_ray (in_direction normal : Vector3) : Vector3 :=
  (Vector3.sub in_direction
    (Vector3.scalarMul (2 * Vector3.dot in_direction normal) normal)).direction

/-- `refract` from materials/material.rs: Rust's
`-in_direction.dot(normal).min(1.0)` parses as the negation of the
clamped dot product. -/
def refract (in_direction normal : Vector3) (ir : ℝ) : Vector3 :=
  let cos_0 := -(min (Vector3.dot in_direction normal) 1)
  let refract_perp :=
    Vector3.scalarMul ir (Vector3.add in_direction (Vector3.scalarMul cos_0 normal))
  let refract_para :=
    Vector3.scalarMul (-(Real.sqrt (1 - refract_perp.length_squared))) normal
  (Vector3.add refract_perp refract_para).direction

/-- `reflectance_schlick` from materials/material.rs. -/
def reflectance_schlick (cos_0 ir : ℝ) : ℝ :=
  let r0 := ((1 - ir) / (1 + ir)) ^ 2
  r0 + (1 - r0) * (1 - cos_0) ^ 5

/-- Claim C10: the scalar-vector product `s * v` of the source returns
`(s * v.x, s * v.x, s * v.x)`; the `y` and `z` components of `v` never
influence the result. -/
theorem scalarMul_uses_x_for_all_components :
    (∀ (s : ℝ) (v : Vector3),
       Vector3.scalarMul s v = ⟨s * v.x, s * v.x, s * v.x⟩) ∧
    (∀ (s a b c b2 c2 : ℝ),
       Vector3.scalarMul s ⟨a, b, c⟩ = Vector3.scalarMul s ⟨a, b2, c2⟩) :=
  ⟨fun _ _ => rfl, fun _ _ _ _ _ _ => rfl⟩

/-- Claim C2 (code bug): `at_distance` on the ray with origin (0,0,0)
and direction (0,1,2), at distance 1, returns (0,0,0) and not the
claimed point `o + s*d = (0,1,2)`, because the scalar product builds
every component from `d.x`. -/
theorem at_distance_bug_eval :
    Ray.at_distance ⟨⟨0, 0, 0⟩, ⟨0, 1, 2⟩, 0⟩ 1 = ⟨0, 0, 0⟩ ∧
    (⟨0 + 1 * 0, 0 + 1 * 1, 0 + 1 * 2⟩ : Vector3) = ⟨0, 1, 2⟩ ∧
    (⟨0, 0, 0⟩ : Vector3) ≠ (⟨0, 1, 2⟩ : Vector3) := by
  refine ⟨?_, ?_, ?_⟩
  · simp [Ray.at_distance, Vector3.add, Vector3.scalarMul]
  · norm_num
  · intro h
    have hy := congrArg Vector3.y h
    norm_num at hy

/-- Claim C4 (code bug): with normal (0,1,0) and random unit vector
(0,0,1), the source's Lambertian scatter direction is the zero vector,
while the true normalization of (normal + rand) claimed by the spec is
not; the attenuation half of the claim does hold (it is the texture
color at (u, v) and the hit point). -/
theorem lambertian_scatter_bug_eval :
    (∀ L : Lambertian, Lambertian.scatter L ⟨0, 1, 0⟩ ⟨0, 0, 1⟩ = ⟨0, 0, 0⟩) ∧
    Vector3.normalizeSpec (Vector3.add ⟨0, 1, 0⟩ ⟨0, 0, 1⟩) ≠ (⟨0, 0, 0⟩ : Vector3) ∧
    (∀ (L : Lambertian) (u v : ℝ) (p : Vector3),
       Lambertian.color L u v p = L.albedo u v p) := by
  refine ⟨?_, ?_, fun _ _ _ _ => rfl⟩
  · intro L
    have hnz : ¬ (Vector3.add ⟨0, 1, 0⟩ ⟨0, 0, 1⟩).near_zero := by
      simp only [Vector3.add, Vector3.near_zero]
      norm_num
    simp only [Lambertian.scatter]
    rw [if_neg hnz]
    simp only [Vector3.direction, Vector3.scalarMul, Vector3.add, Vector3.mk.injEq]
    norm_num
  · intro h
    have hy := congrArg Vector3.y h
    simp only [Vector3.normalizeSpec, Vector3.add, Vector3.length,
      Vector3.length_squared] at hy
    norm_num at hy

/-- Claim C5 (code bug): for the unit incoming direction (0,-1,0) and
unit normal (0,1,0), `refract` with refractive index 1 returns the zero
vector (NaN components in actual f32 arithmetic) instead of the
incoming direction, because the scalar-vector product collapses all
components to multiples of the x component. -/
theorem refract_ir_one_bug_eval :
    refract ⟨0, -1, 0⟩ ⟨0, 1, 0⟩ 1 = ⟨0, 0, 0⟩ ∧
    (⟨0, 0, 0⟩ : Vector3) ≠ (⟨0, -1, 0⟩ : Vector3) ∧
    Vector3.length_squared ⟨0, -1, 0⟩ = 1 := by
  refine ⟨?_, ?_, ?_⟩
  · simp [refract, Vector3.scalarMul, Vector3.add, Vector3.dot, Vector3.direction,
      Vector3.length_squared, Vector3.length]
  · intro h
    have hy := congrArg Vector3.y h
    norm_num at hy
  · simp only [Vector3.length_squared]
    norm_num

/-- The object stored in a hit record, as consumed by main.rs's
`ray_color` (`rec.object.color(rec.intersection)` and
`rec.object.scatter(ray, rec.intersection)`).  The Hittable
implementation files are absent from the sources, so the two
capabilities are opaque functions. -/
structure HitObject where
  colorAt : Vector3 → Color
  scatterAt : Ray → Vector3 → Ray

/-- The hit record consumed by main.rs's `ray_color`: the intersected
object and the intersection point. -/
structure WorldHitRecord where
  object : HitObject
  intersection : Vector3

/-- Modelled from the spec: the scene root (`Arc<dyn Node>`;
objects/bvh_node.rs is absent) as seen by `ray_color` — its
nearest-hit query, with the fixed interval (0.01, infinity) already
applied. -/
structure WorldNode where
  hit : Ray → Option WorldHitRecord

/-- `ray_color` from main.rs: depth 0 returns black before any scene
query; on a hit it multiplies the object color by the recursive
evaluation of the scattered ray; on a miss it returns the vertical
white-to-sky gradient with blend factor t = 0.5 * (direction.y + 1). -/
def ray_color (world : WorldNode) (ray : Ray) : ℕ → Color
  | 0 => ⟨0, 0, 0⟩
  | d + 1 =>
    match world.hit ray with
    | some hr =>
        Color.mulC (hr.object.colorAt hr.intersection)
          (ray_color world (hr.object.scatterAt ray hr.intersection) d)
    | none =>
        let t : ℝ := 0.5 * (ray.direction.y + 1)
        Color.addC (Color.smulC (1 - t) ⟨1, 1, 1⟩) (Color.smulC t ⟨0.5, 0.7, 1⟩)

/-- `ScatterRecord` from materials/material.rs; the PDF trait object
(geometry/pdf.rs is absent) is opaque, modelled as a unit marker. -/
structure ScatterRecord where
  specular_ray : Option Ray
  attenuation : Color
  pdf_ptr : Option Unit

/-- The default `Material::scatter` body from materials/material.rs:
always `Option::None`.  The `HitRecord` argument type
(objects/hittable.rs is absent) is opaque. -/
def Material.defaultScatter {H : Type} (_in_ray : Ray) (_hit_rec : H) :
    Option ScatterRecord :=
  none

/-- The default `Material::emitted` body from materials/material.rs:
`Color::BLACK`, modelled from the spec as (0,0,0) (the constant's
defining file is absent). -/
def Material.defaultEmitted {H : Type} (_ray : Ray) (_hit_rec : H) (_u _v : ℝ)
    (_intersection : Vector3) : Color :=
  ⟨0, 0, 0⟩

/-- Claim C7: `ray_color` with depth budget 0 returns exactly black for
every ray, and the result is independent of the scene (the scene is
never queried). -/
theorem ray_color_depth_zero_black :
    (∀ (world : WorldNode) (ray : Ray), ray_color world ray 0 = ⟨0, 0, 0⟩) ∧
    (∀ (w1 w2 : WorldNode) (ray : Ray), ray_color w1 ray 0 = ray_color w2 ray 0) :=
  ⟨fun _ _ => rfl, fun _ _ _ => rfl⟩

/-- Claim C3: on a miss with positive remaining depth, `ray_color`
returns the gradient (1-t) * white + t * sky with
t = 0.5 * (direction.y + 1); for the unit direction (0,1,0) this is
exactly the sky endpoint (0.5, 0.7, 1.0) and for (0,-1,0) exactly
white (1,1,1). -/
theorem ray_color_miss_gradient :
    (∀ (world : WorldNode) (ray : Ray) (d : ℕ),
       world.hit ray = none →
       ray.direction.length_squared = 1 →
       ray_color world ray (d + 1) =
         Color.addC (Color.smulC (1 - 0.5 * (ray.direction.y + 1)) ⟨1, 1, 1⟩)
           (Color.smulC (0.5 * (ray.direction.y + 1)) ⟨0.5, 0.7, 1⟩)) ∧
    (∀ (world : WorldNode) (ray : Ray) (d : ℕ),
       world.hit ray = none →
       ray.direction = ⟨0, 1, 0⟩ →
       ray_color world ray (d + 1) = ⟨0.5, 0.7, 1⟩) ∧
    (∀ (world : WorldNode) (ray : Ray) (d : ℕ),
       world.hit ray = none →
       ray.direction = ⟨0, -1, 0⟩ →
       ray_color world ray (d + 1) = ⟨1, 1, 1⟩) := by
  refine ⟨?_, ?_, ?_⟩
  · intro world ray d hmiss _
    simp [ray_color, hmiss]
  · intro world ray d hmiss hdir
    simp only [ray_color, hmiss, hdir, Color.addC, Color.smulC, Vector3.mk.injEq,
      Color.mk.injEq]
    norm_num
  · intro world ray d hmiss hdir
    simp only [ray_color, hmiss, hdir, Color.addC, Color.smulC, Vector3.mk.injEq,
      Color.mk.injEq]
    norm_num

/-- Witness for claim C3 at concrete inputs: an always-missing scene,
rays straight up and straight down, depth budget 1. -/
theorem ray_color_miss_gradient_witness :
    ray_color ⟨fun _ => none⟩ ⟨⟨0, 0, 0⟩, ⟨0, 1, 0⟩, 0⟩ 1 = ⟨0.5, 0.7, 1⟩ ∧
    ray_color ⟨fun _ => none⟩ ⟨⟨0, 0, 0⟩, ⟨0, -1, 0⟩, 0⟩ 1 = ⟨1, 1, 1⟩ :=
  ⟨ray_color_miss_gradient.2.1 ⟨fun _ => none⟩ ⟨⟨0, 0, 0⟩, ⟨0, 1, 0⟩, 0⟩ 0 rfl rfl,
   ray_color_miss_gradient.2.2 ⟨fun _ => none⟩ ⟨⟨0, 0, 0⟩, ⟨0, -1, 0⟩, 0⟩ 0 rfl rfl⟩

/-- Claim C6 (code bug): the repository's own `Material` trait defaults
make "no scatter" a normal outcome (`scatter` returns `None`, `emitted`
returns black), but main.rs's `ray_color` has no such branch: on every
hit it unconditionally returns the object color times a recursive call,
and never consults emitted radiance. -/
theorem ray_color_hit_always_recurses :
    (∀ {H : Type} (r : Ray) (h : H), Material.defaultScatter r h = none) ∧
    (∀ {H : Type} (r : Ray) (h : H) (u v : ℝ) (p : Vector3),
       Material.defaultEmitted r h u v p = ⟨0, 0, 0⟩) ∧
    (∀ (world : WorldNode) (ray : Ray) (hr : WorldHitRecord) (d : ℕ),
       world.hit ray = some hr →
       ray_color world ray (d + 1) =
         Color.mulC (hr.object.colorAt hr.intersection)
           (ray_color world (hr.object.scatterAt ray hr.intersection) d)) := by
  refine ⟨fun _ _ => rfl, fun _ _ _ _ _ => rfl, ?_⟩
  intro world ray hr d hhit
  simp [ray_color, hhit]

/-- Witness for claim C6 at concrete inputs: a scene whose query always
hits a fixed object. -/
theorem ray_color_hit_always_recurses_witness :
    ray_color ⟨fun _ => some ⟨⟨fun _ => ⟨1, 1, 1⟩, fun r _ => r⟩, ⟨0, 0, 0⟩⟩⟩
        ⟨⟨0, 0, 0⟩, ⟨0, 0, 1⟩, 0⟩ 1 =
      Color.mulC ⟨1, 1, 1⟩
        (ray_color ⟨fun _ => some ⟨⟨fun _ => ⟨1, 1, 1⟩, fun r _ => r⟩, ⟨0, 0, 0⟩⟩⟩
          ⟨⟨0, 0, 0⟩, ⟨0, 0, 1⟩, 0⟩ 0) :=
  ray_color_hit_always_recurses.2.2
    ⟨fun _ => some ⟨⟨fun _ => ⟨1, 1, 1⟩, fun r _ => r⟩, ⟨0, 0, 0⟩⟩⟩
    ⟨⟨0, 0, 0⟩, ⟨0, 0, 1⟩, 0⟩ ⟨⟨fun _ => ⟨1, 1, 1⟩, fun r _ => r⟩, ⟨0, 0, 0⟩⟩ 0 rfl

end

/-- `block_size` from main.rs: `IMAGE_HEIGHT / NTHREADS`, generalized
over the image height `H` and thread count `N`. -/
def block_size (H N : ℕ) : ℕ := H / N

/-- `end_block_size` from main.rs:
`block_size + (IMAGE_HEIGHT % NTHREADS)`. -/
def end_block_size (H N : ℕ) : ℕ := block_size H N + H % N

/-- Start row of block `i` from main.rs: `i * block_size`. -/
def blockStart (H N i : ℕ) : ℕ := i * block_size H N

/-- End row of block `i` from main.rs: `i * block_size + (if i ==
NTHREADS - 1 { end_block_size } else { block_size })`. -/
def blockEnd (H N i : ℕ) : ℕ :=
  i * block_size H N + (if i = N - 1 then end_block_size H N else block_size H N)

/-- Claim C9: for 1 <= N <= H the renderer's blocks are contiguous,
pairwise disjoint, the first N-1 blocks each span H/N rows, the last
spans H/N + H%N rows, and every row below H lies in exactly one
block. -/
theorem blocks_partition_rows (H N : ℕ) (h1 : 1 ≤ N) (h2 : N ≤ H) :
    (∀ i, i + 1 < N → blockEnd H N i = blockStart H N (i + 1)) ∧
    (∀ i, i + 1 < N → blockEnd H N i - blockStart H N i = H / N) ∧
    (blockEnd H N (N - 1) - blockStart H N (N - 1) = H / N + H % N) ∧
    (∀ i j r, i < N → j < N →
       blockStart H N i ≤ r → r < blockEnd H N i →
       blockStart H N j ≤ r → r < blockEnd H N j → i = j) ∧
    (∀ r, r < H → ∃! i, i < N ∧ blockStart H N i ≤ r ∧ r < blockEnd H N i) := by
  obtain ⟨n, rfl⟩ : ∃ n, N = n + 1 := ⟨N - 1, by omega⟩
  have hbpos : 1 ≤ H / (n + 1) := (Nat.one_le_div_iff (by omega)).mpr h2
  have hdm : (n + 1) * (H / (n + 1)) + H % (n + 1) = H := Nat.div_add_mod H (n + 1)
  have hstart : ∀ i, blockStart H (n + 1) i = i * (H / (n + 1)) := fun _ => rfl
  have hend_lt : ∀ i, i < n → blockEnd H (n + 1) i = (i + 1) * (H / (n + 1)) := by
    intro i hi
    simp only [blockEnd, block_size]
    rw [if_neg (by omega)]
    ring
  have hend_last : blockEnd H (n + 1) n = n * (H / (n + 1)) + (H / (n + 1) + H % (n + 1)) := by
    simp only [blockEnd, end_block_size, block_size]
    rw [if_pos (by omega)]
  have hdisj : ∀ i j r, i < n + 1 → j < n + 1 →
      blockStart H (n + 1) i ≤ r → r < blockEnd H (n + 1) i →
      blockStart H (n + 1) j ≤ r → r < blockEnd H (n + 1) j → i = j := by
    have key : ∀ i j, i < j → j < n + 1 →
        blockEnd H (n + 1) i ≤ blockStart H (n + 1) j := by
      intro i j hij hj
      have hi : i < n := by omega
      rw [hend_lt i hi, hstart]
      exact Nat.mul_le_mul_right _ (by omega)
    intro i j r hi hj hsi hei hsj hej
    rcases lt_trichotomy i j with h | h | h
    · exact absurd (lt_of_lt_of_le hei (le_trans (key i j h hj) hsj)) (lt_irrefl r)
    · exact h
    · exact absurd (lt_of_lt_of_le hej (le_trans (key j i h hi) hsi)) (lt_irrefl r)
  refine ⟨?_, ?_, ?_, hdisj, ?_⟩
  · intro i hi
    rw [hend_lt i (by omega), hstart]
  · intro i hi
    rw [hend_lt i (by omega), hstart, Nat.succ_mul]
    omega
  · simp only [Nat.add_sub_cancel]
    rw [hend_last, hstart]
    omega
  · intro r hr
    have hmain : ∃ i, i < n + 1 ∧ blockStart H (n + 1) i ≤ r ∧ r < blockEnd H (n + 1) i := by
      by_cases hc : r / (H / (n + 1)) < n
      · refine ⟨r / (H / (n + 1)), by omega, ?_, ?_⟩
        · rw [hstart]
          exact Nat.div_mul_le_self r _
        · rw [hend_lt _ hc]
          have h3 := Nat.div_add_mod r (H / (n + 1))
          have h4 := Nat.mod_lt r (y := H / (n + 1)) (by omega)
          have h5 : (r / (H / (n + 1)) + 1) * (H / (n + 1)) =
              (H / (n + 1)) * (r / (H / (n + 1))) + (H / (n + 1)) := by ring
          omega
      · refine ⟨n, by omega, ?_, ?_⟩
        · rw [hstart]
          calc n * (H / (n + 1)) ≤ r / (H / (n + 1)) * (H / (n + 1)) :=
                Nat.mul_le_mul_right _ (by omega)
            _ ≤ r := Nat.div_mul_le_self r _
        · rw [hend_last]
          have h5 : n * (H / (n + 1)) + (H / (n + 1) + H % (n + 1)) =
              (n + 1) * (H / (n + 1)) + H % (n + 1) := by ring
          omega
    obtain ⟨i, hi, hs, he⟩ := hmain
    exact ⟨i, ⟨hi, hs, he⟩, fun j hj => hdisj j i r hj.1 hi hj.2.1 hj.2.2 hs he⟩

/-- Witness for claim C9 at H = 8, N = 3: blocks [0,2), [2,4), [4,8). -/
theorem blocks_partition_rows_witness :
    (1 ≤ 3 ∧ 3 ≤ 8) ∧
    (∀ r, r < 8 → ∃! i, i < 3 ∧ blockStart 8 3 i ≤ r ∧ r < blockEnd 8 3 i) :=
  ⟨⟨by norm_num, by norm_num⟩, (blocks_partition_rows 8 3 (by norm_num) (by norm_num)).2.2.2.2⟩

/-- `ImageBlockInfo` from main.rs, restricted to the fields the final
assembly loop reads: the recorded row range and the rendered rows
(`image_block`).  Pixel values (`Rgb<u8>`) are opaque naturals. -/
structure ImageBlockInfo where
  start_row : ℕ
  end_row : ℕ
  image_block : List (List ℕ)
  deriving DecidableEq

/-- `ImageBuffer::put_pixel(u, v, c)`: the image buffer as a function
from (row, column) to the pixel written there, if any. -/
def putPixel (img : ℕ → ℕ → Option ℕ) (u v c : ℕ) : ℕ → ℕ → Option ℕ :=
  fun v2 u2 => if v2 = v ∧ u2 = u then some c else img v2 u2

/-- The inner x-loop of main.rs's assembly: write row `y` of `block`
into the image (`for x in 0..block.image_block[0].len()`, writing at
column `x`, row `block.start_row + y`). -/
def writeRow (block : ImageBlockInfo) (y : ℕ) (img : ℕ → ℕ → Option ℕ) :
    ℕ → ℕ → Option ℕ :=
  (List.range (block.image_block.headD []).length).foldl
    (fun im x =>
      putPixel im x (block.start_row + y) ((block.image_block.getD y []).getD x 0))
    img

/-- The per-block y-loop of main.rs's assembly
(`for y in 0..block.image_block.len()`). -/
def writeBlock (block : ImageBlockInfo) (img : ℕ → ℕ → Option ℕ) :
    ℕ → ℕ → Option ℕ :=
  (List.range block.image_block.length).foldl (fun im y => writeRow block y im) img

/-- The assembly loop of main.rs (`for block in final_blocks.iter()`),
starting from a given image buffer. -/
def assemble (blocks : List ImageBlockInfo) (img : ℕ → ℕ → Option ℕ) :
    ℕ → ℕ → Option ℕ :=
  blocks.foldl (fun im block => writeBlock block im) img

/-- Two blocks have disjoint recorded row ranges. -/
def DisjointBlocks (a c : ImageBlockInfo) : Prop :=
  a.end_row ≤ c.start_row ∨ c.end_row ≤ a.start_row

theorem assemble_cons (a : ImageBlockInfo) (l : List ImageBlockInfo)
    (img : ℕ → ℕ → Option ℕ) :
    assemble (a :: l) img = assemble l (writeBlock a img) :=
  rfl

theorem foldl_putPixel_apply (v : ℕ) (f : ℕ → ℕ) (n : ℕ) (img : ℕ → ℕ → Option ℕ)
    (v2 u2 : ℕ) :
    ((List.range n).foldl (fun im x => putPixel im x v (f x)) img) v2 u2 =
      if v2 = v ∧ u2 < n then some (f u2) else img v2 u2 := by
  induction n generalizing img with
  | zero => simp
  | succ m ih =>
    rw [List.range_succ, List.foldl_append]
    simp only [List.foldl_cons, List.foldl_nil, ih, putPixel]
    by_cases h1 : v2 = v
    · by_cases h2 : u2 = m
      · subst h1; subst h2
        simp
      · by_cases h3 : u2 < m
        · simp only [h1, h3, and_true, true_and, if_pos]
          rw [if_neg (by omega), if_pos (by omega)]
        · rw [if_neg (by tauto), if_neg (by omega), if_neg (by omega)]
    · rw [if_neg (by tauto), if_neg (by tauto), if_neg (by tauto)]

theorem writeRow_apply (block : ImageBlockInfo) (y : ℕ) (img : ℕ → ℕ → Option ℕ)
    (v2 u2 : ℕ) :
    writeRow block y img v2 u2 =
      if v2 = block.start_row + y ∧ u2 < (block.image_block.headD []).length
      then some ((block.image_block.getD y []).getD u2 0)
      else img v2 u2 :=
  foldl_putPixel_apply (block.start_row + y) _ _ img v2 u2

theorem foldl_writeRow_apply (block : ImageBlockInfo) (m : ℕ)
    (img : ℕ → ℕ → Option ℕ) (v2 u2 : ℕ) :
    ((List.range m).foldl (fun im y => writeRow block y im) img) v2 u2 =
      if block.start_row ≤ v2 ∧ v2 - block.start_row < m ∧
          u2 < (block.image_block.headD []).length
      then some ((block.image_block.getD (v2 - block.start_row) []).getD u2 0)
      else img v2 u2 := by
  induction m generalizing img with
  | zero => simp
  | succ m ih =>
    rw [List.range_succ, List.foldl_append]
    simp only [List.foldl_cons, List.foldl_nil, ih, writeRow_apply]
    by_cases h1 : v2 = block.start_row + m
    · have hv : block.start_row ≤ v2 ∧ v2 - block.start_row = m := by omega
      by_cases h2 : u2 < (block.image_block.headD []).length
      · rw [if_pos ⟨h1, h2⟩, if_pos (by omega)]
        rw [hv.2]
      · rw [if_neg (by tauto), if_neg (by omega), if_neg (by omega)]
    · by_cases h3 : block.start_row ≤ v2 ∧ v2 - block.start_row < m ∧
          u2 < (block.image_block.headD []).length
      · rw [if_neg (by tauto), if_pos h3, if_pos (by omega)]
      · rw [if_neg (by tauto), if_neg h3, if_neg (by omega)]

theorem writeBlock_apply (block : ImageBlockInfo) (img : ℕ → ℕ → Option ℕ)
    (v2 u2 : ℕ) :
    writeBlock block img v2 u2 =
      if block.start_row ≤ v2 ∧ v2 - block.start_row < block.image_block.length ∧
          u2 < (block.image_block.headD []).length
      then some ((block.image_block.getD (v2 - block.start_row) []).getD u2 0)
      else img v2 u2 :=
  foldl_writeRow_apply block _ img v2 u2

theorem writeBlock_comm (a c : ImageBlockInfo) (hd : DisjointBlocks a c)
    (ha : a.image_block.length ≤ a.end_row - a.start_row)
    (hc : c.image_block.length ≤ c.end_row - c.start_row)
    (img : ℕ → ℕ → Option ℕ) :
    writeBlock a (writeBlock c img) = writeBlock c (writeBlock a img) := by
  funext v2 u2
  rw [writeBlock_apply, writeBlock_apply, writeBlock_apply, writeBlock_apply]
  by_cases hA : a.start_row ≤ v2 ∧ v2 - a.start_row < a.image_block.length ∧
      u2 < (a.image_block.headD []).length
  · by_cases hC : c.start_row ≤ v2 ∧ v2 - c.start_row < c.image_block.length ∧
        u2 < (c.image_block.headD []).length
    · exfalso
      rcases hd with hd | hd <;> omega
    · rw [if_pos hA, if_neg hC, if_pos hA]
  · by_cases hC : c.start_row ≤ v2 ∧ v2 - c.start_row < c.image_block.length ∧
        u2 < (c.image_block.headD []).length
    · rw [if_neg hA, if_pos hC, if_pos hC]
    · rw [if_neg hA, if_neg hC, if_neg hC, if_neg hA]

theorem disjointBlocks_symm : Symmetric DisjointBlocks := by
  intro a c h
  rcases h with h | h
  · exact Or.inr h
  · exact Or.inl h

theorem assemble_perm {bs bs2 : List ImageBlockInfo} (hperm : bs.Perm bs2)
    (hfin : ∀ b ∈ bs, b.image_block.length ≤ b.end_row - b.start_row)
    (hdisj : bs.Pairwise DisjointBlocks) :
    ∀ img, assemble bs img = assemble bs2 img := by
  induction hperm with
  | nil => intro img; rfl
  | cons x _ ih =>
    intro img
    simp only [assemble, List.foldl_cons] at *
    exact ih (fun b hb => hfin b (List.mem_cons_of_mem x hb))
      (List.pairwise_cons.mp hdisj).2 (writeBlock x img)
  | swap x y l =>
    intro img
    simp only [assemble, List.foldl_cons]
    have hxy : DisjointBlocks y x := (List.pairwise_cons.mp hdisj).1 x (by simp)
    rw [writeBlock_comm x y (disjointBlocks_symm hxy)
      (hfin x (by simp)) (hfin y (by simp)) img]
  | trans h1 h2 ih1 ih2 =>
    intro img
    rw [ih1 hfin hdisj img]
    exact ih2 (fun b hb => hfin b (h1.mem_iff.mpr hb))
      ((h1.pairwise_iff fun hab => disjointBlocks_symm hab).mp hdisj) img

theorem assemble_untouched (l : List ImageBlockInfo) (v2 u2 : ℕ)
    (h : ∀ c ∈ l, ¬ (c.start_row ≤ v2 ∧ v2 - c.start_row < c.image_block.length ∧
          u2 < (c.image_block.headD []).length)) :
    ∀ img, assemble l img v2 u2 = img v2 u2 := by
  induction l with
  | nil => intro img; rfl
  | cons a l ih =>
    intro img
    simp only [assemble, List.foldl_cons] at *
    rw [ih (fun c hc => h c (List.mem_cons_of_mem a hc)) (writeBlock a img),
      writeBlock_apply, if_neg (h a (by simp))]

theorem assemble_apply_mem (bs : List ImageBlockInfo)
    (hfin : ∀ b ∈ bs, b.image_block.length ≤ b.end_row - b.start_row)
    (hdisj : bs.Pairwise DisjointBlocks)
    (b : ImageBlockInfo) (hb : b ∈ bs) (y u : ℕ)
    (hy : y < b.image_block.length) (hu : u < (b.image_block.headD []).length) :
    ∀ img, assemble bs img (b.start_row + y) u =
      some ((b.image_block.getD y []).getD u 0) := by
  induction bs with
  | nil => cases hb
  | cons a l ih =>
    intro img
    rcases List.mem_cons.mp hb with rfl | hbl
    · rw [assemble_cons]
      have hafin := hfin b (by simp)
      have huntouched : ∀ c ∈ l, ¬ (c.start_row ≤ b.start_row + y ∧
          b.start_row + y - c.start_row < c.image_block.length ∧
          u < (c.image_block.headD []).length) := by
        intro c hc
        have hdc : DisjointBlocks b c := (List.pairwise_cons.mp hdisj).1 c hc
        have hcfin := hfin c (List.mem_cons_of_mem b hc)
        rcases hdc with hd | hd <;> (intro hcon; omega)
      rw [assemble_untouched l (b.start_row + y) u huntouched (writeBlock b img),
        writeBlock_apply, if_pos ⟨by omega, by omega, hu⟩]
      congr 1
      rw [Nat.add_sub_cancel_left]
    · rw [assemble_cons]
      exact ih (fun c hc => hfin c (List.mem_cons_of_mem a hc))
        (List.pairwise_cons.mp hdisj).2 hbl (writeBlock a img)

/-- Claim C8: for finished blocks (each holding exactly its recorded
rows) with pairwise disjoint, nonempty recorded row ranges covering
[0, H), the assembled image is the same for every arrival order, and
the pixel at row `start_row + y`, column `x` is `image_block[y][x]`
regardless of the block's position in the collection. -/
theorem assembly_order_independent (H : ℕ) (bs : List ImageBlockInfo)
    (hfin : ∀ b ∈ bs, b.image_block.length = b.end_row - b.start_row)
    (_hne : ∀ b ∈ bs, b.start_row < b.end_row)
    (hdisj : bs.Pairwise DisjointBlocks)
    (_hcov : ∀ r, r < H → ∃ b ∈ bs, b.start_row ≤ r ∧ r < b.end_row) :
    (∀ bs2, bs.Perm bs2 → ∀ img, assemble bs img = assemble bs2 img) ∧
    (∀ b ∈ bs, ∀ y, y < b.image_block.length →
      ∀ u, u < (b.image_block.headD []).length → ∀ img,
      assemble bs img (b.start_row + y) u =
        some ((b.image_block.getD y []).getD u 0)) :=
  ⟨fun _ hperm => assemble_perm hperm (fun b hb => le_of_eq (hfin b hb)) hdisj,
   fun b hb y hy u hu => assemble_apply_mem bs
     (fun c hc => le_of_eq (hfin c hc)) hdisj b hb y u hy hu⟩

/-- Witness for claim C8 at a concrete pair of blocks covering rows
[0,2) of a 1-pixel-wide image, in both arrival orders. -/
theorem assembly_order_independent_witness :
    assemble [⟨0, 1, [[5]]⟩, ⟨1, 2, [[7]]⟩] (fun _ _ => none) =
      assemble [⟨1, 2, [[7]]⟩, ⟨0, 1, [[5]]⟩] (fun _ _ => none) ∧
    assemble [⟨0, 1, [[5]]⟩, ⟨1, 2, [[7]]⟩] (fun _ _ => none) 1 0 = some 7 := by
  have h := assembly_order_independent 2 [⟨0, 1, [[5]]⟩, ⟨1, 2, [[7]]⟩]
    (by intro b hb; rcases List.mem_cons.mp hb with rfl | hb; · rfl
        rcases List.mem_cons.mp hb with rfl | hb; · rfl
        cases hb)
    (by intro b hb; rcases List.mem_cons.mp hb with rfl | hb; · norm_num
        rcases List.mem_cons.mp hb with rfl | hb; · norm_num
        cases hb)
    (by constructor
        · intro c hc
          rcases List.mem_cons.mp hc with rfl | hc; · left; norm_num
          cases hc
        · simp)
    (by intro r hr
        interval_cases r
        · exact ⟨⟨0, 1, [[5]]⟩, by simp, by norm_num⟩
        · exact ⟨⟨1, 2, [[7]]⟩, by simp, by norm_num⟩)
  constructor
  · exact h.1 _ (List.Perm.swap _ _ _) (fun _ _ => none)
  · have h2 := h.2 ⟨1, 2, [[7]]⟩ (by simp) 0 (by norm_num) 0 (by norm_num)
      (fun _ _ => none)
    simpa using h2

/-- Modelled from the spec: rational-valued 3-vector used by the BVH
geometry model (the objects/ and world/ modules are absent from
src). -/
structure Vec3q where
  x : ℚ
  y : ℚ
  z : ℚ
  deriving DecidableEq

/-- A ray for the BVH model: origin and direction (time plays no role
in the box test). -/
structure Rayq where
  origin : Vec3q
  dir : Vec3q
  deriving DecidableEq

/-- Modelled from the spec: an axis-aligned bounding box given by its
minimum and maximum corner points (section 3, AABB). -/
structure Aabb where
  minC : Vec3q
  maxC : Vec3q
  deriving DecidableEq

/-- Coordinate of a vector along axis 0, 1 or 2 (x, y, z). -/
def Vec3q.axis (v : Vec3q) : Fin 3 → ℚ
  | 0 => v.x
  | 1 => v.y
  | 2 => v.z

/-- Modelled from the spec: the union of two boxes is their enclosing
box (componentwise minimum of minima, maximum of maxima). -/
def Aabb.union (a b : Aabb) : Aabb :=
  ⟨⟨min a.minC.x b.minC.x, min a.minC.y b.minC.y, min a.minC.z b.minC.z⟩,
   ⟨max a.maxC.x b.maxC.x, max a.maxC.y b.maxC.y, max a.maxC.z b.maxC.z⟩⟩

/-- Modelled from the spec: one axis of the ray-slab test — clip the
running interval by the entry and exit distances of the slab, swapping
them when the ray runs backwards along the axis. -/
def slabClip (mn mx o d tmin tmax : ℚ) : ℚ × ℚ :=
  let invD := 1 / d
  let t0 := (mn - o) * invD
  let t1 := (mx - o) * invD
  if invD < 0 then (max t1 tmin, min t0 tmax) else (max t0 tmin, min t1 tmax)

/-- Modelled from the spec: the AABB "ray-slab intersection test over a
distance interval" (section 3), clipping the interval axis by axis and
failing as soon as it becomes empty. -/
def Aabb.hitB (bb : Aabb) (r : Rayq) (tmin tmax : ℚ) : Bool :=
  let p1 := slabClip bb.minC.x bb.maxC.x r.origin.x r.dir.x tmin tmax
  if p1.2 ≤ p1.1 then false else
  let p2 := slabClip bb.minC.y bb.maxC.y r.origin.y r.dir.y p1.1 p1.2
  if p2.2 ≤ p2.1 then false else
  let p3 := slabClip bb.minC.z bb.maxC.z r.origin.z r.dir.z p2.1 p2.2
  decide (p3.1 < p3.2)

/-- Modelled from the spec: a geometric primitive, abstracted to an
identifier, its bounding box, and the list of parametric distances at
which the (fixed, quantified) ray meets it — the sphere modules are
absent from src.  Its intersect query returns the nearest such
distance strictly inside the query window, the spec's "nearest valid
intersection along a ray". -/
structure Prim where
  pid : ℕ
  box : Aabb
  hits : List ℚ
  deriving DecidableEq

/-- The (t, primitive) part of a hit record; the hit point is
determined by t as ray.at_distance(t). -/
structure HitRes where
  t : ℚ
  pid : ℕ
  deriving DecidableEq

/-- Minimum element of a list of rationals, if any. -/
def listMin : List ℚ → Option ℚ
  | [] => none
  | a :: l =>
    match listMin l with
    | none => some a
    | some m => some (min a m)

/-- A primitive's intersect query restricted to the open window
(tmin, tmax): the smallest recorded intersection distance strictly
inside it ("restricted to [t_min, t_max]", with strict bounds so that
a tightened interval can only produce a strictly closer hit). -/
def primHit (p : Prim) (tmin tmax : ℚ) : Option HitRes :=
  (listMin (p.hits.filter fun t => decide (tmin < t) && decide (t < tmax))).map
    fun t => ⟨t, p.pid⟩

theorem listMin_eq_none_iff (l : List ℚ) : listMin l = none ↔ l = [] := by
  cases l with
  | nil => simp [listMin]
  | cons a l =>
    simp only [listMin]
    cases listMin l <;> simp

theorem listMin_mem_le {l : List ℚ} {m : ℚ} (h : listMin l = some m) :
    m ∈ l ∧ ∀ x ∈ l, m ≤ x := by
  induction l generalizing m with
  | nil => simp [listMin] at h
  | cons a l ih =>
    simp only [listMin] at h
    cases hl : listMin l with
    | none =>
      rw [hl] at h
      obtain rfl : a = m := by simpa using h
      have : l = [] := (listMin_eq_none_iff l).mp hl
      subst this
      simp
    | some m2 =>
      rw [hl] at h
      obtain rfl : min a m2 = m := by simpa using h
      obtain ⟨hmem, hle⟩ := ih hl
      constructor
      · rcases min_choice a m2 with h | h <;> rw [h]
        · simp
        · exact List.mem_cons_of_mem a hmem
      · intro x hx
        rcases List.mem_cons.mp hx with rfl | hx
        · exact min_le_left _ _
        · exact le_trans (min_le_right a m2) (hle x hx)

theorem listMin_eq_some {l : List ℚ} {m : ℚ} (hm : m ∈ l)
    (hlb : ∀ x ∈ l, m ≤ x) : listMin l = some m := by
  cases hl : listMin l with
  | none =>
    rw [listMin_eq_none_iff] at hl
    subst hl
    cases hm
  | some m2 =>
    obtain ⟨hmem2, hle2⟩ := listMin_mem_le hl
    exact congrArg some (le_antisymm (hle2 m hm) (hlb m2 hmem2))

theorem primHit_some_elim {p : Prim} {tmin tmax : ℚ} {h : HitRes}
    (hp : primHit p tmin tmax = some h) :
    h.pid = p.pid ∧ h.t ∈ p.hits ∧ tmin < h.t ∧ h.t < tmax ∧
      ∀ x ∈ p.hits, tmin < x → x < tmax → h.t ≤ x := by
  simp only [primHit] at hp
  cases hl : listMin (p.hits.filter fun t => decide (tmin < t) && decide (t < tmax)) with
  | none =>
    rw [hl] at hp
    simp at hp
  | some m =>
    rw [hl] at hp
    obtain rfl : (⟨m, p.pid⟩ : HitRes) = h := by simpa using hp
    obtain ⟨hmem, hle⟩ := listMin_mem_le hl
    simp only [List.mem_filter, Bool.and_eq_true, decide_eq_true_eq] at hmem
    refine ⟨rfl, hmem.1, hmem.2.1, hmem.2.2, ?_⟩
    intro x hx h1 h2
    refine hle x ?_
    simp only [List.mem_filter, Bool.and_eq_true, decide_eq_true_eq]
    exact ⟨hx, h1, h2⟩

theorem primHit_none_elim {p : Prim} {tmin tmax : ℚ}
    (hp : primHit p tmin tmax = none) :
    ∀ x ∈ p.hits, tmin < x → x < tmax → False := by
  intro x hx h1 h2
  simp only [primHit] at hp
  cases hl : listMin (p.hits.filter fun t => decide (tmin < t) && decide (t < tmax)) with
  | some m =>
    rw [hl] at hp
    simp at hp
  | none =>
    rw [listMin_eq_none_iff] at hl
    have hmem : x ∈ p.hits.filter fun t => decide (tmin < t) && decide (t < tmax) := by
      simp only [List.mem_filter, Bool.and_eq_true, decide_eq_true_eq]
      exact ⟨hx, h1, h2⟩
    rw [hl] at hmem
    cases hmem

theorem primHit_none_intro {p : Prim} {tmin tmax : ℚ}
    (h : ∀ x ∈ p.hits, tmin < x → x < tmax → False) :
    primHit p tmin tmax = none := by
  have hfil : p.hits.filter (fun t => decide (tmin < t) && decide (t < tmax)) = [] := by
    rw [List.filter_eq_nil_iff]
    intro x hx
    simp only [Bool.and_eq_true, decide_eq_true_eq, not_and]
    intro h1 h2
    exact (h x hx h1 h2).elim
  simp only [primHit, hfil]
  rfl

theorem primHit_some_intro {p : Prim} {tmin tmax : ℚ} {t : ℚ}
    (hmem : t ∈ p.hits) (h1 : tmin < t) (h2 : t < tmax)
    (hlb : ∀ x ∈ p.hits, tmin < x → x < tmax → t ≤ x) :
    primHit p tmin tmax = some ⟨t, p.pid⟩ := by
  simp only [primHit]
  rw [listMin_eq_some (l := p.hits.filter fun t => decide (tmin < t) && decide (t < tmax))
    (m := t) ?_ ?_]
  · rfl
  · simp only [List.mem_filter, Bool.and_eq_true, decide_eq_true_eq]
    exact ⟨hmem, h1, h2⟩
  · intro x hx
    simp only [List.mem_filter, Bool.and_eq_true, decide_eq_true_eq] at hx
    exact hlb x hx.1 hx.2.1 hx.2.2

theorem primHit_mono_none {p : Prim} {tmin tmax tmax2 : ℚ}
    (hp : primHit p tmin tmax = none) (hle : tmax2 ≤ tmax) :
    primHit p tmin tmax2 = none :=
  primHit_none_intro fun x hx h1 h2 =>
    primHit_none_elim hp x hx h1 (lt_of_lt_of_le h2 hle)

theorem primHit_shrink_some {p : Prim} {tmin tmax tmax2 : ℚ} {h : HitRes}
    (hp : primHit p tmin tmax = some h) (hlt : h.t < tmax2) (hle : tmax2 ≤ tmax) :
    primHit p tmin tmax2 = some h := by
  obtain ⟨hpid, hmem, h1, h2, hlb⟩ := primHit_some_elim hp
  have := primHit_some_intro hmem h1 hlt
    (fun x hx hx1 hx2 => hlb x hx hx1 (lt_of_lt_of_le hx2 hle))
  rw [this]
  congr 1
  cases h
  simp only at hpid
  rw [hpid]

theorem primHit_below_none {p : Prim} {tmin tmax tmax2 : ℚ} {h : HitRes}
    (hp : primHit p tmin tmax = some h) (hle2 : tmax2 ≤ h.t) (hle : tmax2 ≤ tmax) :
    primHit p tmin tmax2 = none := by
  obtain ⟨_, _, _, _, hlb⟩ := primHit_some_elim hp
  refine primHit_none_intro fun x hx h1 h2 => ?_
  have hxlt : x < tmax := lt_of_lt_of_le h2 hle
  have := hlb x hx h1 hxlt
  exact absurd (lt_of_lt_of_le h2 hle2) (not_lt.mpr this)

/-- Modelled from the spec: a BVH node is a leaf wrapping one
primitive, or an internal node holding a box and two children
(objects/bvh_node.rs is absent from src). -/
inductive BTree where
  | leaf (p : Prim)
  | node (box : Aabb) (l r : BTree)
  deriving DecidableEq

/-- The box enclosing a subtree: a leaf's primitive box or the
internal node's stored box. -/
def BTree.bb : BTree → Aabb
  | BTree.leaf p => p.box
  | BTree.node box _ _ => box

/-- Left-to-right list of primitives at a tree's leaves. -/
def BTree.leaves : BTree → List Prim
  | BTree.leaf p => [p]
  | BTree.node _ l r => l.leaves ++ r.leaves

/-- Ordering of primitives by the minimum coordinate of their bounding
box on a chosen axis (the spec's box comparison for sorting). -/
def keyLE (ax : Fin 3) (a b : Prim) : Prop :=
  a.box.minC.axis ax ≤ b.box.minC.axis ax

instance (ax : Fin 3) : DecidableRel (keyLE ax) :=
  fun a b => inferInstanceAs (Decidable (a.box.minC.axis ax ≤ b.box.minC.axis ax))

/-- Modelled from the spec: BVH construction (section 4.1).  No
primitive is a construction error (`none`); one primitive gives a
leaf; otherwise sort the sub-list by box-minimum coordinate on the
chosen axis, split at the midpoint index, recurse on the halves, and
wrap them in a node whose box is the union of the children's boxes
(the two-primitive case — lesser as left leaf — coincides with this
path).  The random axis is an oracle `choose` queried with the
sub-list; the fuel argument only forces termination, and `buildBVH`
supplies fuel that never runs out. -/
def buildFuel (choose : List Prim → Fin 3) : ℕ → List Prim → Option BTree
  | _, [] => none
  | _, [p] => some (BTree.leaf p)
  | 0, _ :: _ :: _ => none
  | fuel + 1, p :: q :: rest =>
    let ps := p :: q :: rest
    let ax := choose ps
    let sorted := ps.insertionSort (keyLE ax)
    let mid := ps.length / 2
    match buildFuel choose fuel (sorted.take mid),
        buildFuel choose fuel (sorted.drop mid) with
    | some lt, some rt => some (BTree.node (lt.bb.union rt.bb) lt rt)
    | _, _ => none

/-- `BVHNode::create_tree` modelled from the spec: build with enough
fuel for the recursion never to be cut off. -/
def buildBVH (choose : List Prim → Fin 3) (ps : List Prim) : Option BTree :=
  buildFuel choose ps.length ps

/-- Modelled from the spec: the BVH query (section 4.1).  A leaf
delegates to its primitive's intersect; an internal node first tests
its box over the interval, returning none on a miss; on a box hit it
queries the left child and, when the left yields a hit at distance
t_left, queries the right child with the interval tightened to
(t_min, t_left), returning the right hit if present and the left one
otherwise. -/
def BTree.hitQ (r : Rayq) : BTree → ℚ → ℚ → Option HitRes
  | BTree.leaf p, tmin, tmax => primHit p tmin tmax
  | BTree.node box l rt, tmin, tmax =>
    if box.hitB r tmin tmax then
      match l.hitQ r tmin tmax with
      | some h =>
        match rt.hitQ r tmin h.t with
        | some h2 => some h2
        | none => some h
      | none => rt.hitQ r tmin tmax
    else none

/-- One step of the brute-force scan: keep the closest hit so far and
tighten the window to it. -/
def stepScan (tmin tmax : ℚ) (acc : Option HitRes) (p : Prim) : Option HitRes :=
  match acc with
  | none => primHit p tmin tmax
  | some h =>
    match primHit p tmin h.t with
    | some h2 => some h2
    | none => some h

/-- The brute-force linear scan of the claim: walk every primitive in
order, keeping the nearest hit found so far and shrinking the search
window to it. -/
def linearScan (ps : List Prim) (tmin tmax : ℚ) : Option HitRes :=
  ps.foldl (stepScan tmin tmax) none

theorem linearScan_cons (p : Prim) (ps : List Prim) (tmin tmax : ℚ) :
    linearScan (p :: ps) tmin tmax = ps.foldl (stepScan tmin tmax) (primHit p tmin tmax) :=
  rfl

theorem foldl_stepScan_some (tmin : ℚ) (l : List Prim) :
    ∀ (tmax : ℚ) (h : HitRes),
      l.foldl (stepScan tmin tmax) (some h) =
        match linearScan l tmin h.t with
        | some h2 => some h2
        | none => some h := by
  induction l with
  | nil =>
    intro tmax h
    simp [linearScan]
  | cons p l ih =>
    intro tmax h
    rw [List.foldl_cons, linearScan_cons]
    show l.foldl (stepScan tmin tmax) (stepScan tmin tmax (some h) p) = _
    cases hph : primHit p tmin h.t with
    | some h2 =>
      have hstep : stepScan tmin tmax (some h) p = some h2 := by
        simp [stepScan, hph]
      rw [hstep, ih tmax h2, ih h.t h2]
      cases linearScan l tmin h2.t <;> rfl
    | none =>
      have hstep : stepScan tmin tmax (some h) p = some h := by
        simp [stepScan, hph]
      rw [hstep, ih tmax h]
      rfl

theorem linearScan_append (l1 l2 : List Prim) (tmin tmax : ℚ) :
    linearScan (l1 ++ l2) tmin tmax =
      match linearScan l1 tmin tmax with
      | some h =>
        match linearScan l2 tmin h.t with
        | some h2 => some h2
        | none => some h
      | none => linearScan l2 tmin tmax := by
  simp only [linearScan, List.foldl_append]
  cases hl1 : List.foldl (stepScan tmin tmax) none l1 with
  | none => rfl
  | some h => exact foldl_stepScan_some tmin l2 tmax h

theorem linearScan_none_of (tmin tmax : ℚ) (l : List Prim)
    (h : ∀ p ∈ l, primHit p tmin tmax = none) :
    linearScan l tmin tmax = none := by
  induction l with
  | nil => rfl
  | cons p l ih =>
    rw [linearScan_cons, h p (by simp)]
    exact ih fun q hq => h q (List.mem_cons_of_mem p hq)

/-- Box-pruning soundness of a tree for a ray: whenever an internal
node's box test fails over some interval, no primitive below it has an
intersection inside that interval (this is what the spec's box
invariant — every node's box encloses its subtree's primitives —
guarantees for real geometry). -/
def soundFor (r : Rayq) : BTree → Prop
  | BTree.leaf _ => True
  | BTree.node box l rt =>
    (∀ tmin tmax, box.hitB r tmin tmax = false →
      ∀ p ∈ l.leaves ++ rt.leaves, primHit p tmin tmax = none) ∧
    soundFor r l ∧ soundFor r rt

theorem hitQ_eq_linearScan (r : Rayq) (T : BTree) (hs : soundFor r T) :
    ∀ tmin tmax, BTree.hitQ r T tmin tmax = linearScan T.leaves tmin tmax := by
  induction T with
  | leaf p =>
    intro tmin tmax
    simp [BTree.hitQ, BTree.leaves, linearScan, stepScan]
  | node box l rt ihl ihr =>
    intro tmin tmax
    obtain ⟨hbox, hsl, hsr⟩ := hs
    show (if box.hitB r tmin tmax then _ else none) = _
    by_cases hb : box.hitB r tmin tmax
    · rw [if_pos hb]
      show BTree.leaves (BTree.node box l rt) |> fun lv => _ = linearScan lv tmin tmax
      show (match BTree.hitQ r l tmin tmax with
        | some h =>
          match BTree.hitQ r rt tmin h.t with
          | some h2 => some h2
          | none => some h
        | none => BTree.hitQ r rt tmin tmax) =
        linearScan (BTree.leaves (BTree.node box l rt)) tmin tmax
      rw [show BTree.leaves (BTree.node box l rt) = l.leaves ++ rt.leaves from rfl,
        linearScan_append, ihl hsl tmin tmax]
      cases linearScan l.leaves tmin tmax with
      | none => exact ihr hsr tmin tmax
      | some h =>
        show (match BTree.hitQ r rt tmin h.t with
          | some h2 => some h2
          | none => some h) =
          (match linearScan rt.leaves tmin h.t with
          | some h2 => some h2
          | none => some h)
        rw [ihr hsr tmin h.t]
    · rw [if_neg hb]
      have hfalse : box.hitB r tmin tmax = false := by
        cases hcase : box.hitB r tmin tmax
        · rfl
        · exact absurd hcase hb
      exact (linearScan_none_of tmin tmax _ fun p hp =>
        hbox tmin tmax hfalse p (by simpa [BTree.leaves] using hp)).symm

theorem foldl_stepScan_t_congr (tmin tmax : ℚ) (l : List Prim) :
    ∀ h1 h2 : HitRes, h1.t = h2.t →
      (l.foldl (stepScan tmin tmax) (some h1)).map HitRes.t =
        (l.foldl (stepScan tmin tmax) (some h2)).map HitRes.t := by
  induction l with
  | nil =>
    intro h1 h2 ht
    simp [ht]
  | cons p l ih =>
    intro h1 h2 ht
    rw [List.foldl_cons, List.foldl_cons]
    show (l.foldl _ (stepScan tmin tmax (some h1) p)).map HitRes.t =
      (l.foldl _ (stepScan tmin tmax (some h2) p)).map HitRes.t
    simp only [stepScan, ht]
    cases hph : primHit p tmin h2.t with
    | some hx => exact ih hx hx rfl
    | none => exact ih h1 h2 ht

theorem linearScan_perm_t {l1 l2 : List Prim} (hperm : l1.Perm l2) :
    ∀ tmin tmax, (linearScan l1 tmin tmax).map HitRes.t =
      (linearScan l2 tmin tmax).map HitRes.t := by
  induction hperm with
  | nil => intro tmin tmax; rfl
  | cons x hp ih =>
    intro tmin tmax
    rw [linearScan_cons, linearScan_cons]
    cases hx : primHit x tmin tmax with
    | none => exact ih tmin tmax
    | some h =>
      rw [foldl_stepScan_some, foldl_stepScan_some]
      have hih := ih tmin h.t
      cases hs1 : linearScan _ tmin h.t with
      | none =>
        rw [hs1] at hih
        cases hs2 : linearScan _ tmin h.t with
        | none => rfl
        | some hb =>
          rw [hs2] at hih
          simp at hih
      | some ha =>
        rw [hs1] at hih
        cases hs2 : linearScan _ tmin h.t with
        | none =>
          rw [hs2] at hih
          simp at hih
        | some hb =>
          rw [hs2] at hih
          simpa using hih
  | swap x y l =>
    intro tmin tmax
    rw [linearScan_cons, List.foldl_cons, linearScan_cons, List.foldl_cons]
    cases hy : primHit y tmin tmax with
    | none =>
      cases hx : primHit x tmin tmax with
      | none =>
        have hL : stepScan tmin tmax none x = none := by simp [stepScan, hx]
        have hR : stepScan tmin tmax none y = none := by simp [stepScan, hy]
        rw [hL, hR]
      | some ha =>
        have hyn : primHit y tmin ha.t = none :=
          primHit_mono_none hy (le_of_lt (primHit_some_elim hx).2.2.2.1)
        have hL : stepScan tmin tmax none x = some ha := by simp [stepScan, hx]
        have hR : stepScan tmin tmax (some ha) y = some ha := by simp [stepScan, hyn]
        rw [hL, hR]
    | some hb =>
      cases hx : primHit x tmin tmax with
      | none =>
        have hxn : primHit x tmin hb.t = none :=
          primHit_mono_none hx (le_of_lt (primHit_some_elim hy).2.2.2.1)
        have hL : stepScan tmin tmax (some hb) x = some hb := by simp [stepScan, hxn]
        have hR : stepScan tmin tmax none y = some hb := by simp [stepScan, hy]
        rw [hL, hR]
      | some ha =>
        rcases lt_trichotomy ha.t hb.t with hlt | heq | hgt
        · have hxL : primHit x tmin hb.t = some ha :=
            primHit_shrink_some hx hlt (le_of_lt (primHit_some_elim hy).2.2.2.1)
          have hyR : primHit y tmin ha.t = none :=
            primHit_below_none hy (le_of_lt hlt) (le_of_lt (primHit_some_elim hx).2.2.2.1)
          have hL : stepScan tmin tmax (some hb) x = some ha := by simp [stepScan, hxL]
          have hR : stepScan tmin tmax (some ha) y = some ha := by simp [stepScan, hyR]
          rw [hL, hR]
        · have hxL : primHit x tmin hb.t = none :=
            primHit_below_none hx heq.ge (le_of_lt (primHit_some_elim hy).2.2.2.1)
          have hyR : primHit y tmin ha.t = none :=
            primHit_below_none hy heq.le (le_of_lt (primHit_some_elim hx).2.2.2.1)
          have hL : stepScan tmin tmax (some hb) x = some hb := by simp [stepScan, hxL]
          have hR : stepScan tmin tmax (some ha) y = some ha := by simp [stepScan, hyR]
          rw [hL, hR]
          exact foldl_stepScan_t_congr tmin tmax l hb ha heq.symm
        · have hyR : primHit y tmin ha.t = some hb :=
            primHit_shrink_some hy hgt (le_of_lt (primHit_some_elim hx).2.2.2.1)
          have hxL : primHit x tmin hb.t = none :=
            primHit_below_none hx (le_of_lt hgt) (le_of_lt (primHit_some_elim hy).2.2.2.1)
          have hL : stepScan tmin tmax (some hb) x = some hb := by simp [stepScan, hxL]
          have hR : stepScan tmin tmax (some ha) y = some hb := by simp [stepScan, hyR]
          rw [hL, hR]
  | trans h1 h2 ih1 ih2 =>
    intro tmin tmax
    exact (ih1 tmin tmax).trans (ih2 tmin tmax)

theorem buildFuel_leaves_perm (choose : List Prim → Fin 3) :
    ∀ (fuel : ℕ) (ps : List Prim) (T : BTree),
      buildFuel choose fuel ps = some T → T.leaves.Perm ps := by
  intro fuel
  induction fuel with
  | zero =>
    intro ps T h
    match ps with
    | [] => simp [buildFuel] at h
    | [p] =>
      simp only [buildFuel, Option.some.injEq] at h
      subst h
      rfl
    | p :: q :: rest => simp [buildFuel] at h
  | succ fuel ih =>
    intro ps T h
    match ps with
    | [] => simp [buildFuel] at h
    | [p] =>
      simp only [buildFuel, Option.some.injEq] at h
      subst h
      rfl
    | p :: q :: rest =>
      rw [buildFuel] at h
      cases hl : buildFuel choose fuel
          (((p :: q :: rest).insertionSort
            (keyLE (choose (p :: q :: rest)))).take ((p :: q :: rest).length / 2)) with
      | none =>
        rw [hl] at h
        cases hr : buildFuel choose fuel
            (((p :: q :: rest).insertionSort
              (keyLE (choose (p :: q :: rest)))).drop ((p :: q :: rest).length / 2)) with
        | none => rw [hr] at h; cases h
        | some rt => rw [hr] at h; cases h
      | some lt =>
        rw [hl] at h
        cases hr : buildFuel choose fuel
            (((p :: q :: rest).insertionSort
              (keyLE (choose (p :: q :: rest)))).drop ((p :: q :: rest).length / 2)) with
        | none => rw [hr] at h; cases h
        | some rt =>
          rw [hr] at h
          obtain rfl : BTree.node (lt.bb.union rt.bb) lt rt = T := by
            simpa using h
          show (lt.leaves ++ rt.leaves).Perm (p :: q :: rest)
          refine (List.Perm.append (ih _ _ hl) (ih _ _ hr)).trans ?_
          rw [List.take_append_drop]
          exact List.perm_insertionSort _ _

/-- Claim C1 (amended): a BVH built over scene S whose boxes are sound
for the ray prunes nothing it should not — its query returns a hit at
exactly the same nearest parametric distance t (hence the same hit
point, at_distance(t)) as the brute-force linear scan of S, for every
window t_min < t_max; being an Option it returns at most one
candidate.  On an exact tie for the nearest t the returned primitive
may differ from the scan's, which is the one amendment the
counterexample forces. -/
theorem bvh_matches_linear_scan (choose : List Prim → Fin 3) (S : List Prim)
    (r : Rayq) (T : BTree) (tmin tmax : ℚ) (_hlt : tmin < tmax)
    (hbuild : buildBVH choose S = some T) (hsound : soundFor r T) :
    (BTree.hitQ r T tmin tmax).map HitRes.t =
      (linearScan S tmin tmax).map HitRes.t := by
  rw [hitQ_eq_linearScan r T hsound tmin tmax]
  exact linearScan_perm_t (buildFuel_leaves_perm choose S.length S T hbuild) tmin tmax

/-- Witness for the amended claim C1: a one-primitive scene hit at
distance 5, queried over the window (0, 10). -/
theorem bvh_matches_linear_scan_witness :
    ((0 : ℚ) < 10) ∧
    (BTree.hitQ ⟨⟨0, 0, 0⟩, ⟨1, 1, 1⟩⟩
        (BTree.leaf ⟨7, ⟨⟨0, 0, 0⟩, ⟨1, 1, 1⟩⟩, [5]⟩) 0 10).map HitRes.t =
      (linearScan [⟨7, ⟨⟨0, 0, 0⟩, ⟨1, 1, 1⟩⟩, [5]⟩] 0 10).map HitRes.t :=
  ⟨by norm_num,
   bvh_matches_linear_scan (fun _ => 0) [⟨7, ⟨⟨0, 0, 0⟩, ⟨1, 1, 1⟩⟩, [5]⟩]
     ⟨⟨0, 0, 0⟩, ⟨1, 1, 1⟩⟩ (BTree.leaf ⟨7, ⟨⟨0, 0, 0⟩, ⟨1, 1, 1⟩⟩, [5]⟩)
     0 10 (by norm_num) rfl trivial⟩

/-- Axis oracle for the C1 counterexample: always split on x. -/
def cchoose : List Prim → Fin 3 := fun _ => 0

/-- Counterexample primitive 1: box minimum x = 1, hit at t = 1. -/
def cp1 : Prim := ⟨1, ⟨⟨1, -1, -1⟩, ⟨2, 1, 1⟩⟩, [1]⟩

/-- Counterexample primitive 2: box minimum x = 0, hit at t = 1. -/
def cp2 : Prim := ⟨2, ⟨⟨0, -1, -1⟩, ⟨2, 1, 1⟩⟩, [1]⟩

/-- Counterexample ray through both boxes. -/
def cRay : Rayq := ⟨⟨0, 0, 0⟩, ⟨1, 1, 1⟩⟩

/-- The tree the build produces on [cp1, cp2]: sorting by box minimum
x puts cp2 on the left. -/
def cT : BTree := BTree.node ⟨⟨0, -1, -1⟩, ⟨2, 1, 1⟩⟩ (BTree.leaf cp2) (BTree.leaf cp1)

/-- Claim C1 as stated is false on the code's semantics: on the scene
[cp1, cp2], both hit at exactly t = 1, the built BVH (sound boxes and
all) returns primitive 2 while the brute-force scan of the original
list returns primitive 1 — same distance, different primitive. -/
theorem bvh_counterexample :
    buildBVH cchoose [cp1, cp2] = some cT ∧
    BTree.hitQ cRay cT 0 10 = some ⟨1, 2⟩ ∧
    linearScan [cp1, cp2] 0 10 = some ⟨1, 1⟩ ∧
    BTree.hitQ cRay cT 0 10 ≠ linearScan [cp1, cp2] 0 10 ∧
    ((0 : ℚ) < 10) ∧
    soundFor cRay cT := by
  have hbox : Aabb.hitB ⟨⟨0, -1, -1⟩, ⟨2, 1, 1⟩⟩ cRay 0 10 = true := by
    norm_num [Aabb.hitB, slabClip, cRay, min_def, max_def]
  have hp2 : primHit cp2 0 10 = some ⟨1, 2⟩ := by decide
  have hp1 : primHit cp1 0 (1 : ℚ) = none := by decide
  have hq : BTree.hitQ cRay cT 0 10 = some ⟨1, 2⟩ := by
    simp [cT, BTree.hitQ, hbox, hp2, hp1]
  have hlin : linearScan [cp1, cp2] 0 10 = some ⟨1, 1⟩ := by decide
  refine ⟨by decide, hq, hlin, ?_, by norm_num, ?_, trivial, trivial⟩
  · rw [hq, hlin]
    decide
  intro tmin tmax hfalse p hp
  have hune : p.hits = [1] := by
    rcases List.mem_append.mp hp with hp | hp
    · obtain rfl : p = cp2 := by simpa [BTree.leaves] using hp
      rfl
    · obtain rfl : p = cp1 := by simpa [BTree.leaves] using hp
      rfl
  refine primHit_none_intro fun x hx h1 h2 => ?_
  rw [hune] at hx
  obtain rfl : x = 1 := by simpa using hx
  have htrue : Aabb.hitB ⟨⟨0, -1, -1⟩, ⟨2, 1, 1⟩⟩ cRay tmin tmax = true := by
    simp only [Aabb.hitB, slabClip, cRay]
    norm_num
    repeat' apply And.intro
    all_goals linarith
  rw [hfalse] at htrue
  cases htrue

end Raytrace
